import Mathlib

/-!
Shallow embedding of `src/main.py` (grafana_tools): the label-matcher
rewrite engine (`replace_label_in_expr` with its inner `replacer`), the
panel-tree flattening (`extract_panels`) and the per-dashboard planning
logic (`process_dashboard`).  Strings are modelled as `List Char`; the
network calls (requests.*) are out of scope and the planner is rendered
as a pure function returning the mutated object, the change records it
appends to the caller-owned log, and the modified flag that gates the
update call.
-/

namespace GrafanaTools

abbrev Str := List Char

/-- `[a-zA-Z_]` : first character of `(?P<key>...)` in the pattern. -/
def isIdentStart (c : Char) : Bool := c.isAlpha || c == '_'

/-- `[a-zA-Z0-9_]` : continuation characters of `(?P<key>...)`. -/
def isIdentChar (c : Char) : Bool := c.isAlphanum || c == '_'

/-- The characters Python's `\s` matches in a `str` pattern compiled
without `re.ASCII` (as in the source): the ASCII whitespace and
separators with bidirectional class WS/B/S plus the Unicode space
separators — TAB..CR, FS/GS/RS/US, SPACE, NEL, NO-BREAK SPACE, OGHAM
SPACE MARK, EN QUAD..HAIR SPACE, LINE SEPARATOR, PARAGRAPH SEPARATOR,
NARROW NO-BREAK SPACE, MEDIUM MATHEMATICAL SPACE, IDEOGRAPHIC SPACE. -/
def pythonWhitespace : List Char :=
  ['\t', '\n', '\x0b', '\x0c', '\r',
   '\x1c', '\x1d', '\x1e', '\x1f',
   ' ', '\x85', '\xa0', '\u1680',
   '\u2000', '\u2001', '\u2002', '\u2003', '\u2004', '\u2005',
   '\u2006', '\u2007', '\u2008', '\u2009', '\u200a',
   '\u2028', '\u2029', '\u202f', '\u205f', '\u3000']

/-- `\s` of the pattern: membership in `pythonWhitespace`. -/
def isSpaceChar (c : Char) : Bool := List.elem c pythonWhitespace

/-- `["\']` : the quote group accepts a double or single quote. -/
def isQuote (c : Char) : Bool := c == '"' || c == '\''

/-- `[^"\']` : the value class excludes BOTH quote characters. -/
def notQuote (c : Char) : Bool := !(c == '"' || c == '\'')

/-- `(?P<op>=~|!~|=|!=)` : ordered alternation, two-character operators
`=~` and `!~` tried before `=`, then `!=`.  (The alternatives are mutually
exclusive on their first two characters, so the ordered alternation is
equivalent to this first-match case split.) -/
def matchOp : Str → Option (Str × Str)
  | '=' :: '~' :: rest => some (['=', '~'], rest)
  | '!' :: '~' :: rest => some (['!', '~'], rest)
  | '=' :: rest => some (['='], rest)
  | '!' :: '=' :: rest => some (['!', '='], rest)
  | _ => none

/-- One successful match of the pattern
`(?P<key>[a-zA-Z_][a-zA-Z0-9_]*)\s*(?P<op>=~|!~|=|!=)\s*(?P<quote>["\x27])(?P<val>[^"\x27]*?)(?P=quote)`:
`token` is group 0, `rest` the remainder of the input after the match. -/
structure MRes where
  token : Str
  key : Str
  op : Str
  quote : Char
  val : Str
  rest : Str
deriving Repr, DecidableEq

/-- Attempt the pattern at the head of the input.  The pattern is
deterministic here: the key run and the whitespace runs are maximal (no
following alternative can start with an identifier or space character),
the operator alternation is first-match, and the non-greedy value run
must stop at the first quote character of either kind, which must then
equal the opening quote. -/
def matchMatcher : Str → Option MRes
  | [] => none
  | c :: cs =>
    if isIdentStart c then
      let key := c :: cs.takeWhile isIdentChar
      let r1 := cs.dropWhile isIdentChar
      let ws1 := r1.takeWhile isSpaceChar
      let r2 := r1.dropWhile isSpaceChar
      match matchOp r2 with
      | none => none
      | some (op, r3) =>
        let ws2 := r3.takeWhile isSpaceChar
        let r4 := r3.dropWhile isSpaceChar
        match r4 with
        | [] => none
        | q :: r5 =>
          if isQuote q then
            let v := r5.takeWhile notQuote
            let r6 := r5.dropWhile notQuote
            match r6 with
            | [] => none
            | q2 :: rest =>
              if q2 == q then
                some ⟨key ++ ws1 ++ op ++ ws2 ++ q :: (v ++ [q]), key, op, q, v, rest⟩
              else none
          else none
    else none

/-- The inner `replacer(match)` of `replace_label_in_expr`: on a full
key/value match return `f'{new_label}{op}{quote}{new_value}{quote}'`,
otherwise return `match.group(0)` unchanged. -/
def replacer (old_label old_value new_label new_value : Str) (m : MRes) : Str :=
  if m.key = old_label ∧ m.val = old_value then
    new_label ++ m.op ++ m.quote :: (new_value ++ [m.quote])
  else m.token

/-- `pattern.sub(replacer, expr)` as a fuel-indexed left-to-right scan:
at each position try the pattern; on a match emit the replacement and
continue after the match, otherwise emit one character and continue.
Fuel is only a termination device; `expr.length` fuel always suffices. -/
def rewriteLoopF (old_label old_value new_label new_value : Str) :
    Nat → Str → Str
  | _, [] => []
  | 0, cs => cs
  | fuel + 1, c :: rest =>
    match matchMatcher (c :: rest) with
    | some r => replacer old_label old_value new_label new_value r ++
        rewriteLoopF old_label old_value new_label new_value fuel r.rest
    | none => c :: rewriteLoopF old_label old_value new_label new_value fuel rest

/-- `replace_label_in_expr(expr, old_label, old_value, new_label, new_value)`. -/
def replace_label_in_expr (expr old_label old_value new_label new_value : Str) : Str :=
  rewriteLoopF old_label old_value new_label new_value expr.length expr

/-- A query target: a dict that may or may not carry an `expr` key. -/
structure Target where
  expr : Option Str
deriving Repr, DecidableEq

/-- A panel dict: optional `title`, optional `targets`, optional child
`panels` key.  Presence of the `panels` key (even with an empty list)
makes the panel a container in `extract_panels`. -/
inductive Panel where
  | mk (title : Option Str) (targets : Option (List Target)) (subpanels : Option (List Panel)) : Panel
deriving Repr

def Panel.title : Panel → Option Str
  | .mk t _ _ => t

def Panel.targets : Panel → Option (List Target)
  | .mk _ tg _ => tg

def Panel.subpanels : Panel → Option (List Panel)
  | .mk _ _ s => s

/-- `extract_panels(panels)`: a panel with a `panels` key is expanded
into the flattening of its children (and is itself dropped); a panel
without the key is appended as-is. -/
def extract_panels : List Panel → List Panel
  | [] => []
  | Panel.mk _ _ (some children) :: rest =>
    extract_panels children ++ extract_panels rest
  | Panel.mk t tg none :: rest => Panel.mk t tg none :: extract_panels rest

/-- Pre-order, depth-first, left-to-right traversal visiting EVERY node
of the panel tree (containers included).  Used to state what the
flattening keeps and in which order. -/
def preorderPanels : List Panel → List Panel
  | [] => []
  | Panel.mk t tg none :: rest => Panel.mk t tg none :: preorderPanels rest
  | Panel.mk t tg (some children) :: rest =>
    Panel.mk t tg (some children) :: (preorderPanels children ++ preorderPanels rest)

def unnamedDashboard : Str := "Unnamed Dashboard".data

def unnamedPanel : Str := "Unnamed Panel".data

/-- One appended log entry, kept structured: the source renders it as
`f"{folder_title}: {title}: {panel_title}\n  BEFORE: {expr}\n  AFTER:  {new_expr}"`
(see `renderLogEntry`). -/
structure ChangeRecord where
  folderTitle : Str
  dashboardTitle : Str
  panelTitle : Str
  before : Str
  after : Str
deriving Repr, DecidableEq

/-- The exact text of the appended log entry. -/
def renderLogEntry (r : ChangeRecord) : Str :=
  r.folderTitle ++ ": ".data ++ r.dashboardTitle ++ ": ".data ++ r.panelTitle ++
    "\n  BEFORE: ".data ++ r.before ++ "\n  AFTER:  ".data ++ r.after

/-- The caller-visible data of a record apart from the panel title:
folder title, dashboard title, and the before/after expressions. -/
def recordSummary (r : ChangeRecord) : Str × Str × Str × Str :=
  (r.folderTitle, r.dashboardTitle, r.before, r.after)

/-- Does `needle` occur at the start of `hay`? -/
def startsWith : Str → Str → Bool
  | [], _ => true
  | _ :: _, [] => false
  | a :: as, b :: bs => a == b && startsWith as bs

/-- Python substring membership `needle in hay`. -/
def subIn (needle : Str) : Str → Bool
  | [] => startsWith needle []
  | c :: rest => startsWith needle (c :: rest) || subIn needle rest

/-- The per-target body of the loop in `process_dashboard`: guard
`if expr and old_label in expr and old_value in expr`, rewrite, and on a
real change return the mutated target together with the
(before, after) pair; otherwise leave the target untouched. -/
def targetRewrite (old_label old_value new_label new_value : Str) (t : Target) :
    Target × Option (Str × Str) :=
  match t.expr with
  | none => (t, none)
  | some e =>
    if !e.isEmpty && (subIn old_label e && subIn old_value e) then
      let ne := replace_label_in_expr e old_label old_value new_label new_value
      if ne = e then (t, none) else ({ expr := some ne }, some (e, ne))
    else (t, none)

/-- The same per-target step with the substring pre-filter removed:
`replace_label_in_expr` is invoked on every present expression.
Modelled from the spec: "the same ... as invoking rewrite
unconditionally on every expression". -/
def targetRewriteUnconditional (old_label old_value new_label new_value : Str)
    (t : Target) : Target × Option (Str × Str) :=
  match t.expr with
  | none => (t, none)
  | some e =>
    let ne := replace_label_in_expr e old_label old_value new_label new_value
    if ne = e then (t, none) else ({ expr := some ne }, some (e, ne))

/-- The `for target in targets` loop: mutated targets in order plus the
(before, after) pairs of the changes, in target order. -/
def processTargets (old_label old_value new_label new_value : Str) :
    List Target → List Target × List (Str × Str)
  | [] => ([], [])
  | t :: ts =>
    let p := targetRewrite old_label old_value new_label new_value t
    let rest := processTargets old_label old_value new_label new_value ts
    (p.1 :: rest.1, p.2.toList ++ rest.2)

/-- `processTargets` with the pre-filter removed, for the refinement
comparison. -/
def processTargetsUnconditional (old_label old_value new_label new_value : Str) :
    List Target → List Target × List (Str × Str)
  | [] => ([], [])
  | t :: ts =>
    let p := targetRewriteUnconditional old_label old_value new_label new_value t
    let rest := processTargetsUnconditional old_label old_value new_label new_value ts
    (p.1 :: rest.1, p.2.toList ++ rest.2)

/-- The change records contributed by one (leaf) panel, in target order. -/
def panelRecords (old_label old_value new_label new_value folder_title dtitle : Str)
    (p : Panel) : List ChangeRecord :=
  (processTargets old_label old_value new_label new_value (p.targets.getD [])).2.map
    (fun c => ⟨folder_title, dtitle, p.title.getD unnamedPanel, c.1, c.2⟩)

/-- The `for panel in all_panels` loop of `process_dashboard`, rendered
on the tree: the source flattens the tree into references to the leaf
dicts and mutates their targets in place, which on the tree means:
panels carrying a `panels` key keep their own targets untouched and have
their children processed; panels without the key have their targets
rewritten.  Returns the updated panels and the appended records. -/
def processPanels (old_label old_value new_label new_value folder_title dtitle : Str) :
    List Panel → List Panel × List ChangeRecord
  | [] => ([], [])
  | Panel.mk t tg (some children) :: rest =>
    let c := processPanels old_label old_value new_label new_value folder_title dtitle children
    let r := processPanels old_label old_value new_label new_value folder_title dtitle rest
    (Panel.mk t tg (some c.1) :: r.1, c.2 ++ r.2)
  | Panel.mk t none none :: rest =>
    let r := processPanels old_label old_value new_label new_value folder_title dtitle rest
    (Panel.mk t none none :: r.1, r.2)
  | Panel.mk t (some ts) none :: rest =>
    let pt := processTargets old_label old_value new_label new_value ts
    let recs := pt.2.map (fun c => ⟨folder_title, dtitle, t.getD unnamedPanel, c.1, c.2⟩)
    let r := processPanels old_label old_value new_label new_value folder_title dtitle rest
    (Panel.mk t (some pt.1) none :: r.1, recs ++ r.2)

/-- `dashboard_obj['meta']` : only its `folderId` entry is consulted. -/
structure Meta where
  folderId : Option Int
deriving Repr, DecidableEq

/-- `dashboard_obj['dashboard']`. -/
structure Dashboard where
  title : Option Str
  panels : Option (List Panel)
  id : Option Int

/-- The retrieved dashboard object: the `dashboard` payload plus the
top-level keys the planner reads (`meta`) and writes (`overwrite`,
`folderId`). -/
structure DashObj where
  dashboard : Dashboard
  meta : Option Meta
  overwrite : Option Bool
  folderId : Option Int

/-- Result of one planning pass: the (possibly stamped) object, the
records appended to the caller-owned log, and the modified flag that
gates the `update_dashboard` call. -/
structure PlanResult where
  obj : DashObj
  records : List ChangeRecord
  modified : Bool

/-- `process_dashboard`: default the title, flatten-and-rewrite the
panels, and if anything changed stamp the persistence envelope
(`id` preserved, `overwrite = True`,
`folderId = dashboard_obj.get('meta', \x7b\x7d).get('folderId', 0)`).
`modified` is set in the source exactly when a record is appended. -/
def process_dashboard (obj : DashObj)
    (old_label old_value new_label new_value folder_title : Str) : PlanResult :=
  let dashboard := obj.dashboard
  let title := dashboard.title.getD unnamedDashboard
  let pr := processPanels old_label old_value new_label new_value folder_title title
    (dashboard.panels.getD [])
  let panelsField : Option (List Panel) :=
    match dashboard.panels with
    | none => none
    | some _ => some pr.1
  let modified := !pr.2.isEmpty
  if modified then
    { obj :=
        { dashboard := { title := dashboard.title, panels := panelsField, id := dashboard.id },
          meta := obj.meta,
          overwrite := some true,
          folderId := some ((obj.meta.bind Meta.folderId).getD 0) },
      records := pr.2, modified := true }
  else
    { obj := { obj with dashboard := { dashboard with panels := panelsField } },
      records := pr.2, modified := false }

/-- The (before, after) pairs of all targets the planning pass changes,
read off the flattened leaf panels in traversal order. -/
def dashboardChanges (old_label old_value new_label new_value : Str)
    (panels : List Panel) : List (Str × Str) :=
  (extract_panels panels).flatMap
    (fun p => (processTargets old_label old_value new_label new_value (p.targets.getD [])).2)

/-- A one-panel, one-target dashboard object used to exercise the
planner on concrete data. -/
def sampleObj : DashObj :=
  ⟨⟨some "d".data,
    some [Panel.mk (some "p".data) (some [⟨some "up\x7bbla=\"bli\"\x7d".data⟩]) none],
    some 7⟩,
   some ⟨some 3⟩, none, none⟩

/-! ## Scanner lemmas -/

theorem matchOp_append {l op rest : Str} (h : matchOp l = some (op, rest)) :
    op ++ rest = l := by
  unfold matchOp at h
  split at h <;> simp_all <;> rw [← h.1] <;> rfl

theorem startsWith_iff (n : Str) : ∀ h : Str, startsWith n h = true ↔ n <+: h := by
  induction n with
  | nil => intro h; simp [startsWith]
  | cons a as ih =>
    intro h
    cases h with
    | nil => simp [startsWith]
    | cons b bs =>
      simp [startsWith, List.cons_prefix_cons, ih bs, And.comm]

theorem subIn_iff (n : Str) : ∀ h : Str, subIn n h = true ↔ n <:+: h := by
  intro h
  induction h with
  | nil => simp [subIn, startsWith_iff, List.infix_nil, List.prefix_nil]
  | cons b bs ih =>
    simp [subIn, startsWith_iff, List.infix_cons_iff, ih, Bool.or_eq_true]

theorem matchOp_shape {l op rest : Str} (h : matchOp l = some (op, rest)) :
    op = ['='] ∨ op = ['!', '='] ∨ op = ['=', '~'] ∨ op = ['!', '~'] := by
  unfold matchOp at h
  split at h <;> simp_all

theorem matchMatcher_some {cs : Str} {r : MRes} (h : matchMatcher cs = some r) :
    ∃ ws1 ws2,
      (∀ c ∈ ws1, isSpaceChar c = true) ∧ (∀ c ∈ ws2, isSpaceChar c = true) ∧
      r.token = r.key ++ ws1 ++ r.op ++ ws2 ++ r.quote :: (r.val ++ [r.quote]) ∧
      r.token ++ r.rest = cs ∧
      (∀ c ∈ r.val, notQuote c = true) ∧
      isQuote r.quote = true ∧ r.key ≠ [] ∧
      (r.op = ['='] ∨ r.op = ['!', '='] ∨ r.op = ['=', '~'] ∨ r.op = ['!', '~']) := by
  cases cs with
  | nil => simp [matchMatcher] at h
  | cons c cs' =>
    simp only [matchMatcher] at h
    split at h
    case isFalse => exact absurd h (by simp)
    case isTrue hid =>
      split at h
      case h_1 => exact absurd h (by simp)
      case h_2 op r3 hop =>
        split at h
        case h_1 => exact absurd h (by simp)
        case h_2 q r5 hr4 =>
          split at h
          case isFalse => exact absurd h (by simp)
          case isTrue hq =>
            split at h
            case h_1 => exact absurd h (by simp)
            case h_2 q2 rest hr6 =>
              split at h
              case isFalse => exact absurd h (by simp)
              case isTrue hq2 =>
                injection h with h
                subst h
                refine ⟨(cs'.dropWhile isIdentChar).takeWhile isSpaceChar,
                  r3.takeWhile isSpaceChar, ?_, ?_, ?_, ?_, ?_, ?_, ?_, ?_⟩
                · exact fun c hc => List.mem_takeWhile_imp hc
                · exact fun c hc => List.mem_takeWhile_imp hc
                · rfl
                · have hq2' : q2 = q := by simpa using hq2
                  rw [hq2'] at hr6
                  have hB : r5.takeWhile notQuote ++ (q :: rest) = r5 := by
                    rw [← hr6]; exact List.takeWhile_append_dropWhile ..
                  have hD : r3.takeWhile isSpaceChar ++ (q :: r5) = r3 := by
                    rw [← hr4]; exact List.takeWhile_append_dropWhile ..
                  have hE : op ++ r3 = (cs'.dropWhile isIdentChar).dropWhile isSpaceChar :=
                    matchOp_append hop
                  have hF : (cs'.dropWhile isIdentChar).takeWhile isSpaceChar ++ (op ++ r3) =
                      cs'.dropWhile isIdentChar := by
                    rw [hE]; exact List.takeWhile_append_dropWhile ..
                  have hG : cs'.takeWhile isIdentChar ++
                      ((cs'.dropWhile isIdentChar).takeWhile isSpaceChar ++ (op ++ r3)) =
                      cs' := by
                    rw [hF]; exact List.takeWhile_append_dropWhile ..
                  simp only [List.cons_append, List.append_assoc, List.singleton_append,
                    List.nil_append]
                  rw [hB, hD, hG]
                · exact fun c hc => List.mem_takeWhile_imp hc
                · exact hq
                · simp
                · exact matchOp_shape hop

theorem matchMatcher_append {cs : Str} {r : MRes} (h : matchMatcher cs = some r) :
    r.token ++ r.rest = cs := by
  obtain ⟨_, _, _, _, _, happ, _, _, _, _⟩ := matchMatcher_some h
  exact happ

theorem matchMatcher_key_pre {cs : Str} {r : MRes} (h : matchMatcher cs = some r) :
    r.key <+: cs := by
  obtain ⟨ws1, ws2, _, _, htok, happ, _, _, _, _⟩ := matchMatcher_some h
  rw [← happ, htok]
  simp only [List.append_assoc]
  exact List.prefix_append _ _

theorem matchMatcher_val_infix {cs : Str} {r : MRes} (h : matchMatcher cs = some r) :
    r.val <:+: cs := by
  obtain ⟨ws1, ws2, _, _, htok, happ, _, _, _, _⟩ := matchMatcher_some h
  refine ⟨r.key ++ ws1 ++ r.op ++ ws2 ++ [r.quote], [r.quote] ++ r.rest, ?_⟩
  rw [← happ, htok]
  simp [List.append_assoc]

theorem matchMatcher_rest_lt {cs : Str} {r : MRes} (h : matchMatcher cs = some r) :
    r.rest.length < cs.length := by
  obtain ⟨ws1, ws2, _, _, htok, happ, _, _, _, _⟩ := matchMatcher_some h
  have hlen : r.token.length + r.rest.length = cs.length := by
    rw [← happ]; simp
  have hpos : 0 < r.token.length := by
    rw [htok]; simp
  omega

theorem rewriteLoopF_congr (ol ov nl nv : Str) :
    ∀ fuel fuel' cs, cs.length ≤ fuel → cs.length ≤ fuel' →
      rewriteLoopF ol ov nl nv fuel cs = rewriteLoopF ol ov nl nv fuel' cs := by
  intro fuel
  induction fuel with
  | zero =>
    intro fuel' cs h h'
    have : cs = [] := List.length_eq_zero.mp (Nat.le_zero.mp h)
    subst this
    cases fuel' <;> rfl
  | succ f ih =>
    intro fuel' cs h h'
    cases cs with
    | nil => cases fuel' <;> rfl
    | cons c rest =>
      cases fuel' with
      | zero => simp at h'
      | succ f' =>
        simp only [rewriteLoopF]
        cases hm : matchMatcher (c :: rest) with
        | none =>
          simp only [List.length_cons] at h h'
          exact congrArg (c :: ·) (ih f' rest (by omega) (by omega))
        | some r =>
          have hlt := matchMatcher_rest_lt hm
          simp only [List.length_cons] at h h' hlt
          exact congrArg (_ ++ ·) (ih f' r.rest (by omega) (by omega))

theorem replace_step_some {cs : Str} {r : MRes} (ol ov nl nv : Str)
    (h : matchMatcher cs = some r) :
    replace_label_in_expr cs ol ov nl nv =
      replacer ol ov nl nv r ++ replace_label_in_expr r.rest ol ov nl nv := by
  cases cs with
  | nil => simp [matchMatcher] at h
  | cons c rest =>
    have hlt := matchMatcher_rest_lt h
    simp only [List.length_cons] at hlt
    unfold replace_label_in_expr
    simp only [List.length_cons, rewriteLoopF]
    rw [h]
    exact congrArg (_ ++ ·) (rewriteLoopF_congr ol ov nl nv rest.length r.rest.length r.rest
      (by omega) (by omega))

theorem replace_step_none {c : Char} {rest : Str} (ol ov nl nv : Str)
    (h : matchMatcher (c :: rest) = none) :
    replace_label_in_expr (c :: rest) ol ov nl nv =
      c :: replace_label_in_expr rest ol ov nl nv := by
  unfold replace_label_in_expr
  simp only [List.length_cons, rewriteLoopF]
  rw [h]

theorem rewriteLoopF_id_of_nosub (ol ov nl nv : Str) :
    ∀ fuel cs, (¬ ol <:+: cs ∨ ¬ ov <:+: cs) →
      rewriteLoopF ol ov nl nv fuel cs = cs := by
  intro fuel
  induction fuel with
  | zero => intro cs _; cases cs <;> rfl
  | succ f ih =>
    intro cs hno
    cases cs with
    | nil => rfl
    | cons c rest =>
      simp only [rewriteLoopF]
      cases hm : matchMatcher (c :: rest) with
      | none =>
        refine congrArg (c :: ·) (ih rest ?_)
        cases hno with
        | inl hl => exact Or.inl fun hi => hl (hi.trans (List.suffix_cons c rest).isInfix)
        | inr hr => exact Or.inr fun hi => hr (hi.trans (List.suffix_cons c rest).isInfix)
      | some r =>
        have hkv : ¬ (r.key = ol ∧ r.val = ov) := by
          rintro ⟨h1, h2⟩
          cases hno with
          | inl hl => exact hl (h1 ▸ (matchMatcher_key_pre hm).isInfix)
          | inr hr => exact hr (h2 ▸ matchMatcher_val_infix hm)
        have hsuf : r.rest <:+ c :: rest := ⟨r.token, matchMatcher_append hm⟩
        have hrest : rewriteLoopF ol ov nl nv f r.rest = r.rest := by
          refine ih r.rest ?_
          cases hno with
          | inl hl => exact Or.inl fun hi => hl (hi.trans hsuf.isInfix)
          | inr hr => exact Or.inr fun hi => hr (hi.trans hsuf.isInfix)
        show replacer ol ov nl nv r ++ rewriteLoopF ol ov nl nv f r.rest = c :: rest
        rw [hrest]
        simp only [replacer, if_neg hkv]
        exact matchMatcher_append hm

theorem replace_id_of_nosub {ol ov nl nv e : Str}
    (h : ¬ ol <:+: e ∨ ¬ ov <:+: e) :
    replace_label_in_expr e ol ov nl nv = e :=
  rewriteLoopF_id_of_nosub ol ov nl nv e.length e h

/-! ## Panel-tree lemmas -/

theorem extract_panels_eq_filter (ps : List Panel) :
    extract_panels ps = (preorderPanels ps).filter (fun p => p.subpanels.isNone) := by
  induction ps using extract_panels.induct with
  | case1 => simp [extract_panels, preorderPanels]
  | case2 t tg children rest ih1 ih2 =>
    simp [extract_panels, preorderPanels, List.filter_append, ih1, ih2, Panel.subpanels]
  | case3 t tg rest ih =>
    simp [extract_panels, preorderPanels, ih, Panel.subpanels]

theorem processPanels_records (ol ov nl nv f dt : Str) (ps : List Panel) :
    (processPanels ol ov nl nv f dt ps).2 =
      (extract_panels ps).flatMap (panelRecords ol ov nl nv f dt) := by
  induction ps using processPanels.induct ol ov nl nv f dt with
  | case1 => simp [processPanels, extract_panels]
  | case2 t tg children rest ih1 ih2 =>
    simp [processPanels, extract_panels, List.flatMap_append, ih1, ih2]
  | case3 t rest ih =>
    simp [processPanels, extract_panels, ih, panelRecords, Panel.targets, Panel.title,
      processTargets]
  | case4 t ts rest ih =>
    simp [processPanels, extract_panels, ih, panelRecords, Panel.targets, Panel.title]

/-! ## Planner lemmas -/

theorem processTargets_changes (ol ov nl nv : Str) :
    ∀ ts (c : Str × Str), c ∈ (processTargets ol ov nl nv ts).2 →
      c.2 = replace_label_in_expr c.1 ol ov nl nv ∧ c.2 ≠ c.1 := by
  intro ts
  induction ts with
  | nil => intro c hc; simp [processTargets] at hc
  | cons t ts ih =>
    intro c hc
    simp only [processTargets, List.mem_append] at hc
    cases hc with
    | inr h => exact ih c h
    | inl h =>
      cases t with
      | mk oe =>
        cases oe with
        | none => simp [targetRewrite] at h
        | some e =>
          unfold targetRewrite at h
          simp only at h
          split at h
          case isTrue =>
            split at h
            case isTrue => simp at h
            case isFalse hne =>
              simp only [Option.toList, List.mem_singleton] at h
              subst h
              exact ⟨rfl, hne⟩
          case isFalse => simp at h

theorem processPanels_pairs (ol ov nl nv f dt : Str) (ps : List Panel) :
    ((processPanels ol ov nl nv f dt ps).2).map (fun r => (r.before, r.after)) =
      dashboardChanges ol ov nl nv ps := by
  rw [processPanels_records, dashboardChanges, List.map_flatMap]
  refine congrArg _ (funext fun p => ?_)
  simp [panelRecords, List.map_map, Function.comp_def]

theorem processPanels_titles (ol ov nl nv f dt : Str) (ps : List Panel)
    (r : ChangeRecord) (hr : r ∈ (processPanels ol ov nl nv f dt ps).2) :
    r.folderTitle = f ∧ r.dashboardTitle = dt := by
  rw [processPanels_records] at hr
  obtain ⟨p, _, hp⟩ := List.mem_flatMap.mp hr
  simp only [panelRecords, List.mem_map] at hp
  obtain ⟨c, _, hc⟩ := hp
  subst hc
  exact ⟨rfl, rfl⟩

theorem process_dashboard_records (obj : DashObj) (ol ov nl nv f : Str) :
    (process_dashboard obj ol ov nl nv f).records =
      (processPanels ol ov nl nv f (obj.dashboard.title.getD unnamedDashboard)
        (obj.dashboard.panels.getD [])).2 := by
  simp only [process_dashboard]
  split <;> rfl

theorem process_dashboard_modified (obj : DashObj) (ol ov nl nv f : Str) :
    (process_dashboard obj ol ov nl nv f).modified =
      !((process_dashboard obj ol ov nl nv f).records).isEmpty := by
  simp only [process_dashboard]
  split
  case isTrue h => simp_all
  case isFalse h => simp_all

theorem process_dashboard_stamped (obj : DashObj) (ol ov nl nv f : Str)
    (h : (process_dashboard obj ol ov nl nv f).records ≠ []) :
    (process_dashboard obj ol ov nl nv f).obj.overwrite = some true ∧
    (process_dashboard obj ol ov nl nv f).obj.dashboard.id = obj.dashboard.id ∧
    (process_dashboard obj ol ov nl nv f).obj.folderId =
      some ((obj.meta.bind Meta.folderId).getD 0) := by
  rw [process_dashboard_records] at h
  simp only [process_dashboard]
  split
  case isTrue => exact ⟨rfl, rfl, rfl⟩
  case isFalse hfalse => simp_all

/-! ## Pre-filter equivalence -/

theorem targetRewrite_eq_uncond (ol ov nl nv : Str) (t : Target) :
    targetRewrite ol ov nl nv t = targetRewriteUnconditional ol ov nl nv t := by
  cases t with
  | mk oe =>
    cases oe with
    | none => rfl
    | some e =>
      simp only [targetRewrite, targetRewriteUnconditional]
      split
      case isTrue h => rfl
      case isFalse h =>
        have hne : replace_label_in_expr e ol ov nl nv = e := by
          by_cases he : e = []
          · subst he; rfl
          · have hsub : subIn ol e = false ∨ subIn ov e = false := by
              cases h1 : subIn ol e <;> cases h2 : subIn ov e <;> simp_all [List.isEmpty_iff]
            refine replace_id_of_nosub ?_
            cases hsub with
            | inl h1 =>
              exact Or.inl fun hi => by rw [(subIn_iff ol e).mpr hi] at h1; cases h1
            | inr h2 =>
              exact Or.inr fun hi => by rw [(subIn_iff ov e).mpr hi] at h2; cases h2
        rw [if_pos hne]

theorem processTargets_eq_uncond (ol ov nl nv : Str) (ts : List Target) :
    processTargets ol ov nl nv ts = processTargetsUnconditional ol ov nl nv ts := by
  induction ts with
  | nil => rfl
  | cons t ts ih =>
    simp only [processTargets, processTargetsUnconditional, targetRewrite_eq_uncond, ih]

/-! ## Character-class facts and scanner construction -/

theorem space_not_identChar {c : Char} (h : isSpaceChar c = true) : isIdentChar c = false := by
  have hall : ∀ x ∈ pythonWhitespace, isIdentChar x = false := by decide
  have h' : List.elem c pythonWhitespace = true := h
  exact hall c (List.elem_iff.mp h')

theorem space_ne_tilde {c : Char} (h : isSpaceChar c = true) : c ≠ '~' := by
  have hall : ∀ x ∈ pythonWhitespace, x ≠ '~' := by decide
  have h' : List.elem c pythonWhitespace = true := h
  exact hall c (List.elem_iff.mp h')

theorem quote_not_identChar {c : Char} (h : isQuote c = true) : isIdentChar c = false := by
  simp only [isQuote, Bool.or_eq_true, beq_iff_eq] at h
  rcases h with h | h <;> subst h <;> decide

theorem quote_not_space {c : Char} (h : isQuote c = true) : isSpaceChar c = false := by
  simp only [isQuote, Bool.or_eq_true, beq_iff_eq] at h
  rcases h with h | h <;> subst h <;> decide

theorem quote_ne_tilde {c : Char} (h : isQuote c = true) : c ≠ '~' := by
  simp only [isQuote, Bool.or_eq_true, beq_iff_eq] at h
  rcases h with h | h <;> subst h <;> decide

theorem quote_notQuote {c : Char} (h : isQuote c = true) : notQuote c = false := by
  simp only [isQuote, Bool.or_eq_true, beq_iff_eq] at h
  rcases h with h | h <;> subst h <;> decide

theorem tw_dw_append {p : Char → Bool} :
    ∀ {l l2 : Str}, (∀ a ∈ l, p a = true) → (∀ b, l2.head? = some b → p b = false) →
      (l ++ l2).takeWhile p = l ∧ (l ++ l2).dropWhile p = l2 := by
  intro l
  induction l with
  | nil =>
    intro l2 _ h2
    cases l2 with
    | nil => exact ⟨rfl, rfl⟩
    | cons b t =>
      simp [List.takeWhile_cons, List.dropWhile_cons, h2 b rfl]
  | cons a l ih =>
    intro l2 h1 h2
    have ha : p a = true := h1 a (List.mem_cons_self a l)
    have hrec := ih (fun x hx => h1 x (List.mem_cons_of_mem a hx)) h2
    simp [List.takeWhile_cons, List.dropWhile_cons, ha, hrec.1, hrec.2]

theorem matchOp_eq_single {c : Char} {l : Str} (h : c ≠ '~') :
    matchOp ('=' :: c :: l) = some (['='], c :: l) := by
  unfold matchOp
  split <;> simp_all

theorem matchOp_bang_eq (l : Str) : matchOp ('!' :: '=' :: l) = some (['!', '='], l) := by
  unfold matchOp
  split <;> simp_all

theorem matchOp_eq_tilde (l : Str) : matchOp ('=' :: '~' :: l) = some (['=', '~'], l) := rfl

theorem matchOp_bang_tilde (l : Str) : matchOp ('!' :: '~' :: l) = some (['!', '~'], l) := rfl

theorem matchMatcher_construct
    (k0 q : Char) (k1 ws1 op ws2 val rest : Str)
    (hk0 : isIdentStart k0 = true) (hk1 : ∀ c ∈ k1, isIdentChar c = true)
    (hws1 : ∀ c ∈ ws1, isSpaceChar c = true) (hws2 : ∀ c ∈ ws2, isSpaceChar c = true)
    (hop : op = ['='] ∨ op = ['!', '='] ∨ op = ['=', '~'] ∨ op = ['!', '~'])
    (hq : isQuote q = true) (hval : ∀ c ∈ val, notQuote c = true) :
    matchMatcher ((k0 :: k1) ++ ws1 ++ op ++ ws2 ++ q :: (val ++ q :: rest)) =
      some ⟨(k0 :: k1) ++ ws1 ++ op ++ ws2 ++ q :: (val ++ [q]), k0 :: k1, op, q, val, rest⟩ := by
  have hX : (k0 :: k1) ++ ws1 ++ op ++ ws2 ++ q :: (val ++ q :: rest) =
      k0 :: (k1 ++ (ws1 ++ (op ++ (ws2 ++ q :: (val ++ q :: rest))))) := by
    simp [List.append_assoc]
  have hhead1 : ∀ b, (ws1 ++ (op ++ (ws2 ++ q :: (val ++ q :: rest)))).head? = some b →
      isIdentChar b = false := by
    intro b hb
    cases ws1 with
    | cons w ws1' =>
      simp only [List.cons_append, List.head?_cons, Option.some.injEq] at hb
      subst hb
      exact space_not_identChar (hws1 _ (List.mem_cons_self w ws1'))
    | nil =>
      simp only [List.nil_append] at hb
      rcases hop with h | h | h | h <;> subst h <;>
        simp only [List.cons_append, List.head?_cons, Option.some.injEq] at hb <;>
        subst hb <;> decide
  have e12 := tw_dw_append hk1 hhead1
  have hhead2 : ∀ b, (op ++ (ws2 ++ q :: (val ++ q :: rest))).head? = some b →
      isSpaceChar b = false := by
    intro b hb
    rcases hop with h | h | h | h <;> subst h <;>
      simp only [List.cons_append, List.head?_cons, Option.some.injEq] at hb <;>
      subst hb <;> decide
  have e34 := tw_dw_append hws1 hhead2
  have e5 : matchOp (op ++ (ws2 ++ q :: (val ++ q :: rest))) =
      some (op, ws2 ++ q :: (val ++ q :: rest)) := by
    rcases hop with h | h | h | h <;> subst h
    · cases ws2 with
      | nil => exact matchOp_eq_single (quote_ne_tilde hq)
      | cons w ws2' =>
        exact matchOp_eq_single (space_ne_tilde (hws2 w (List.mem_cons_self w ws2')))
    · exact matchOp_bang_eq _
    · exact matchOp_eq_tilde _
    · exact matchOp_bang_tilde _
  have hhead3 : ∀ b, (q :: (val ++ q :: rest)).head? = some b → isSpaceChar b = false := by
    intro b hb
    simp only [List.head?_cons, Option.some.injEq] at hb
    subst hb
    exact quote_not_space hq
  have e67 := tw_dw_append hws2 hhead3
  have hhead4 : ∀ b, (q :: rest).head? = some b → notQuote b = false := by
    intro b hb
    simp only [List.head?_cons, Option.some.injEq] at hb
    subst hb
    exact quote_notQuote hq
  have e89 := tw_dw_append hval hhead4
  rw [hX]
  simp only [matchMatcher, hk0, if_true, e12.1, e12.2, e34.1, e34.2, e5, e67.1, e67.2,
    e89.1, e89.2, beq_self_eq_true, if_pos hq]

/-! ## Claims -/

/-- C1: whenever the scanner recognises a matcher token whose key equals
`old_label` and whose value equals `old_value`, the rewrite replaces the
whole matched token with `new_label OP QUOTE new_value QUOTE`, keeping
the matched operator (one of `=`, `!=`, `=~`, `!~`) and the matched
quote character; concretely, rewriting `up\x7bbla="bli", job="x"\x7d`
with (bla, bli) → (roni, taktook) yields `up\x7broni="taktook", job="x"\x7d`
with changed = true. -/
theorem C1_matching_token_replaced :
    (∀ (ol ov nl nv cs : Str) (r : MRes), matchMatcher cs = some r →
      r.key = ol → r.val = ov →
      replace_label_in_expr cs ol ov nl nv =
        (nl ++ r.op ++ r.quote :: (nv ++ [r.quote])) ++
          replace_label_in_expr r.rest ol ov nl nv ∧
      (r.op = ['='] ∨ r.op = ['!', '='] ∨ r.op = ['=', '~'] ∨ r.op = ['!', '~']) ∧
      isQuote r.quote = true) ∧
    replace_label_in_expr "up\x7bbla=\"bli\", job=\"x\"\x7d".data
      "bla".data "bli".data "roni".data "taktook".data =
      "up\x7broni=\"taktook\", job=\"x\"\x7d".data ∧
    replace_label_in_expr "up\x7bbla=\"bli\", job=\"x\"\x7d".data
      "bla".data "bli".data "roni".data "taktook".data ≠
      "up\x7bbla=\"bli\", job=\"x\"\x7d".data := by
  refine ⟨?_, by decide, by decide⟩
  intro ol ov nl nv cs r hm hk hv
  obtain ⟨_, _, _, _, _, _, _, _, _, hshape⟩ := matchMatcher_some hm
  refine ⟨?_, hshape, ?_⟩
  · rw [replace_step_some ol ov nl nv hm, replacer, if_pos ⟨hk, hv⟩]
  · obtain ⟨_, _, _, _, _, _, _, hq, _, _⟩ := matchMatcher_some hm
    exact hq

/-- C1 witness: the general clause applied to the concrete expression
`bla="bli"` with request (bla, bli) → (roni, taktook). -/
theorem C1_witness :
    replace_label_in_expr "bla=\"bli\"".data "bla".data "bli".data "roni".data "taktook".data =
      ("roni".data ++ ['='] ++ '"' :: ("taktook".data ++ ['"'])) ++
        replace_label_in_expr [] "bla".data "bli".data "roni".data "taktook".data ∧
    ((['='] : Str) = ['='] ∨ (['='] : Str) = ['!', '='] ∨
      (['='] : Str) = ['=', '~'] ∨ (['='] : Str) = ['!', '~']) ∧
    isQuote '"' = true :=
  C1_matching_token_replaced.1 "bla".data "bli".data "roni".data "taktook".data
    "bla=\"bli\"".data
    ⟨"bla=\"bli\"".data, "bla".data, ['='], '"', "bli".data, []⟩
    (by decide) rfl rfl

/-- C2: a recognised matcher token whose (key, value) differ from
(old_label, old_value) is emitted byte-for-byte (group 0), and a position
where the pattern does not match passes its character through verbatim;
concretely `rate(bla\x7bother="bli"\x7d[5m])` is returned unchanged
(changed = false) for the request (bla, bli) → (roni, taktook). -/
theorem C2_nonmatching_preserved :
    (∀ (ol ov nl nv cs : Str) (r : MRes), matchMatcher cs = some r →
      ¬(r.key = ol ∧ r.val = ov) →
      replace_label_in_expr cs ol ov nl nv =
        r.token ++ replace_label_in_expr r.rest ol ov nl nv) ∧
    (∀ (ol ov nl nv : Str) (c : Char) (rest : Str), matchMatcher (c :: rest) = none →
      replace_label_in_expr (c :: rest) ol ov nl nv =
        c :: replace_label_in_expr rest ol ov nl nv) ∧
    replace_label_in_expr "rate(bla\x7bother=\"bli\"\x7d[5m])".data
      "bla".data "bli".data "roni".data "taktook".data =
      "rate(bla\x7bother=\"bli\"\x7d[5m])".data := by
  refine ⟨?_, ?_, by decide⟩
  · intro ol ov nl nv cs r hm hne
    rw [replace_step_some ol ov nl nv hm, replacer, if_neg hne]
  · intro ol ov nl nv c rest hm
    exact replace_step_none ol ov nl nv hm

/-- C2 witness: the non-matching clause applied to `other="bli"` with
request (bla, bli) → (roni, taktook). -/
theorem C2_witness :
    replace_label_in_expr "other=\"bli\"".data "bla".data "bli".data "roni".data "taktook".data =
      "other=\"bli\"".data ++
        replace_label_in_expr [] "bla".data "bli".data "roni".data "taktook".data :=
  C2_nonmatching_preserved.1 "bla".data "bli".data "roni".data "taktook".data
    "other=\"bli\"".data
    ⟨"other=\"bli\"".data, "other".data, ['='], '"', "bli".data, []⟩
    (by decide) (by decide)

/-- C3 counterexample: a panel carrying a `panels` key whose list is
empty is dropped entirely by `extract_panels` — it is lost, contradicting
the claim that such a panel is not lost. -/
theorem C3_counterexample :
    extract_panels [Panel.mk none none (some [])] = [] ∧
    Panel.mk none none (some []) ∉ extract_panels [Panel.mk none none (some [])] := by
  constructor
  · simp [extract_panels]
  · simp [extract_panels]

/-- C3 (amended): `extract_panels` returns exactly the panels that have
no child-panel sequence field, in pre-order depth-first left-to-right
order (so no such leaf panel is lost or duplicated); a panel whose
child-panel sequence field is present but empty is a container and
contributes nothing. -/
theorem C3_flatten_filter (ps : List Panel) :
    extract_panels ps = (preorderPanels ps).filter (fun p => p.subpanels.isNone) :=
  extract_panels_eq_filter ps

/-- C4 counterexample: the value class of the scanner excludes BOTH
quote characters, so `key="it's"` (a single quote inside a double-quoted
value) is NOT recognised: the rewrite returns the expression unchanged
instead of rewriting it. -/
theorem C4_counterexample :
    replace_label_in_expr "key=\"it's\"".data "key".data "it's".data
      "roni".data "taktook".data = "key=\"it's\"".data := by decide

/-- C4 (amended): the scanner's VALUE component accepts zero or more
characters excluding BOTH quote characters, so a matcher whose value
contains the other quote character is not recognised and the expression
passes through unchanged. -/
theorem C4_value_class :
    (∀ (cs : Str) (r : MRes), matchMatcher cs = some r →
      ∀ c ∈ r.val, c ≠ '"' ∧ c ≠ '\'') ∧
    replace_label_in_expr "key='it\"s'".data "key".data "it\"s".data
      "roni".data "taktook".data = "key='it\"s'".data := by
  refine ⟨?_, by decide⟩
  intro cs r hm c hc
  obtain ⟨_, _, _, _, _, _, hval, _, _, _⟩ := matchMatcher_some hm
  have := hval c hc
  simp only [notQuote, Bool.not_eq_true', Bool.or_eq_false_iff, beq_eq_false_iff_ne] at this
  exact this

/-- C4 witness: the value clause applied to the concrete match of
`a="xy"`, at the value character `x`. -/
theorem C4_witness : 'x' ≠ '"' ∧ 'x' ≠ '\'' :=
  C4_value_class.1 "a=\"xy\"".data
    ⟨"a=\"xy\"".data, "a".data, ['='], '"', "xy".data, []⟩
    (by decide) 'x' (by decide)

/-- C5: for a dashboard where the traversal finds exactly one changed
target, the plan is modified, carries exactly one record whose before
and after fields are the original and the rewritten expression, and the
mutated object is stamped with overwrite = true, the preserved id, and
the metadata folder id (default 0). -/
theorem C5_single_change (obj : DashObj) (ol ov nl nv f e e' : Str)
    (h : dashboardChanges ol ov nl nv (obj.dashboard.panels.getD []) = [(e, e')]) :
    (process_dashboard obj ol ov nl nv f).modified = true ∧
    ((process_dashboard obj ol ov nl nv f).records).map recordSummary =
      [(f, obj.dashboard.title.getD unnamedDashboard, e, e')] ∧
    e' = replace_label_in_expr e ol ov nl nv ∧ e' ≠ e ∧
    (process_dashboard obj ol ov nl nv f).obj.overwrite = some true ∧
    (process_dashboard obj ol ov nl nv f).obj.dashboard.id = obj.dashboard.id ∧
    (process_dashboard obj ol ov nl nv f).obj.folderId =
      some ((obj.meta.bind Meta.folderId).getD 0) := by
  have hpairs := processPanels_pairs ol ov nl nv f
    (obj.dashboard.title.getD unnamedDashboard) (obj.dashboard.panels.getD [])
  rw [h] at hpairs
  have hlen : ((processPanels ol ov nl nv f (obj.dashboard.title.getD unnamedDashboard)
      (obj.dashboard.panels.getD [])).2).length = 1 := by
    have := congrArg List.length hpairs
    simpa using this
  obtain ⟨r, hr⟩ := List.length_eq_one.mp hlen
  have hba : r.before = e ∧ r.after = e' := by
    rw [hr] at hpairs
    simpa using hpairs
  have hmem : r ∈ (processPanels ol ov nl nv f (obj.dashboard.title.getD unnamedDashboard)
      (obj.dashboard.panels.getD [])).2 := by
    rw [hr]; exact List.mem_singleton.mpr rfl
  have htit := processPanels_titles ol ov nl nv f
    (obj.dashboard.title.getD unnamedDashboard) (obj.dashboard.panels.getD []) r hmem
  have hrecs : (process_dashboard obj ol ov nl nv f).records = [r] := by
    rw [process_dashboard_records]; exact hr
  have hchange : e' = replace_label_in_expr e ol ov nl nv ∧ e' ≠ e := by
    have hpmem : (e, e') ∈ dashboardChanges ol ov nl nv (obj.dashboard.panels.getD []) := by
      rw [h]; exact List.mem_singleton.mpr rfl
    simp only [dashboardChanges, List.mem_flatMap] at hpmem
    obtain ⟨p, _, hp⟩ := hpmem
    exact processTargets_changes ol ov nl nv _ (e, e') hp
  have hne : (process_dashboard obj ol ov nl nv f).records ≠ [] := by
    rw [hrecs]; simp
  obtain ⟨s1, s2, s3⟩ := process_dashboard_stamped obj ol ov nl nv f hne
  refine ⟨?_, ?_, hchange.1, hchange.2, s1, s2, s3⟩
  · rw [process_dashboard_modified, hrecs]; rfl
  · rw [hrecs]
    simp [recordSummary, htit.1, htit.2, hba.1, hba.2]

/-- C5 witness: the concrete one-panel dashboard `sampleObj` whose only
target is `up\x7bbla="bli"\x7d`, with request (bla, bli) → (roni, taktook). -/
theorem C5_witness :
    (process_dashboard sampleObj "bla".data "bli".data "roni".data "taktook".data
      "folder".data).modified = true ∧
    ((process_dashboard sampleObj "bla".data "bli".data "roni".data "taktook".data
      "folder".data).records).map recordSummary =
      [("folder".data, "d".data, "up\x7bbla=\"bli\"\x7d".data,
        "up\x7broni=\"taktook\"\x7d".data)] ∧
    "up\x7broni=\"taktook\"\x7d".data =
      replace_label_in_expr "up\x7bbla=\"bli\"\x7d".data "bla".data "bli".data
        "roni".data "taktook".data ∧
    "up\x7broni=\"taktook\"\x7d".data ≠ "up\x7bbla=\"bli\"\x7d".data ∧
    (process_dashboard sampleObj "bla".data "bli".data "roni".data "taktook".data
      "folder".data).obj.overwrite = some true ∧
    (process_dashboard sampleObj "bla".data "bli".data "roni".data "taktook".data
      "folder".data).obj.dashboard.id = sampleObj.dashboard.id ∧
    (process_dashboard sampleObj "bla".data "bli".data "roni".data "taktook".data
      "folder".data).obj.folderId = some ((sampleObj.meta.bind Meta.folderId).getD 0) :=
  C5_single_change sampleObj "bla".data "bli".data "roni".data "taktook".data
    "folder".data "up\x7bbla=\"bli\"\x7d".data "up\x7broni=\"taktook\"\x7d".data
    (by
      show dashboardChanges "bla".data "bli".data "roni".data "taktook".data
        [Panel.mk (some "p".data)
          (some [⟨some "up\x7bbla=\"bli\"\x7d".data⟩]) none] = _
      simp only [dashboardChanges]
      rw [show extract_panels
          [Panel.mk (some "p".data) (some [⟨some "up\x7bbla=\"bli\"\x7d".data⟩]) none] =
          [Panel.mk (some "p".data) (some [⟨some "up\x7bbla=\"bli\"\x7d".data⟩]) none]
        from by simp [extract_panels]]
      decide)

/-- C6 counterexample: with request (a, b) → (c, `" a="b`) the rewrite
of `a="b"` is `c="" a="b"`, which still contains a token with key `a`
and value `b`; the second application rewrites again, so rewrite is not
idempotent for replacement values containing quote characters. -/
theorem C6_counterexample :
    replace_label_in_expr
        (replace_label_in_expr "a=\"b\"".data "a".data "b".data "c".data "\" a=\"b".data)
        "a".data "b".data "c".data "\" a=\"b".data ≠
      replace_label_in_expr "a=\"b\"".data "a".data "b".data "c".data "\" a=\"b".data := by
  decide

/-- C6 (amended): applying rewrite twice equals applying it once for
every expression whose first rewrite no longer contains both the old
label and the old value as substrings (the second application is then a
no-op); replacement values that reintroduce the old label/value pair can
make a second application change the result again. -/
theorem C6_idempotent_when_old_absent (ol ov nl nv e : Str)
    (h : ¬ (ol <:+: replace_label_in_expr e ol ov nl nv ∧
        ov <:+: replace_label_in_expr e ol ov nl nv)) :
    replace_label_in_expr (replace_label_in_expr e ol ov nl nv) ol ov nl nv =
      replace_label_in_expr e ol ov nl nv :=
  replace_id_of_nosub (not_and_or.mp h)

/-- C6 witness: the standard request on `up\x7bbla="bli"\x7d`, whose rewrite
no longer contains `bla`. -/
theorem C6_witness :
    replace_label_in_expr
        (replace_label_in_expr "up\x7bbla=\"bli\"\x7d".data "bla".data "bli".data
          "roni".data "taktook".data)
        "bla".data "bli".data "roni".data "taktook".data =
      replace_label_in_expr "up\x7bbla=\"bli\"\x7d".data "bla".data "bli".data
        "roni".data "taktook".data :=
  C6_idempotent_when_old_absent "bla".data "bli".data "roni".data "taktook".data
    "up\x7bbla=\"bli\"\x7d".data (by decide)

/-- C7: the substring pre-filter in the planner is sound — for every
target the guarded step equals the unconditional step (same final
expression and same recorded change), and hence the whole target loop is
unchanged by the filter; skipping never loses a change. -/
theorem C7_prefilter_equiv :
    (∀ (ol ov nl nv : Str) (t : Target),
      targetRewrite ol ov nl nv t = targetRewriteUnconditional ol ov nl nv t) ∧
    (∀ (ol ov nl nv : Str) (ts : List Target),
      processTargets ol ov nl nv ts = processTargetsUnconditional ol ov nl nv ts) :=
  ⟨targetRewrite_eq_uncond, processTargets_eq_uncond⟩

/-- C8: missing fields never fail the plan — a dashboard without a
`panels` key is returned untouched with no records and modified = false;
a panel without `targets` contributes nothing and is kept as-is; a
target without `expr` is left alone; a missing dashboard title defaults
to "Unnamed Dashboard" and a missing panel title to "Unnamed Panel" in
the change records. -/
theorem C8_missing_fields :
    (∀ (obj : DashObj) (ol ov nl nv f : Str), obj.dashboard.panels = none →
      process_dashboard obj ol ov nl nv f = ⟨obj, [], false⟩) ∧
    (∀ (ol ov nl nv f dt : Str) (ti : Option Str) (rest : List Panel),
      processPanels ol ov nl nv f dt (Panel.mk ti none none :: rest) =
        (Panel.mk ti none none :: (processPanels ol ov nl nv f dt rest).1,
          (processPanels ol ov nl nv f dt rest).2)) ∧
    (∀ ol ov nl nv : Str, targetRewrite ol ov nl nv ⟨none⟩ = (⟨none⟩, none)) ∧
    (∀ (obj : DashObj) (ol ov nl nv f : Str) (r : ChangeRecord),
      obj.dashboard.title = none →
      r ∈ (process_dashboard obj ol ov nl nv f).records →
      r.dashboardTitle = unnamedDashboard) ∧
    (∀ (ol ov nl nv f dt : Str) (ts : List Target) (r : ChangeRecord),
      r ∈ (processPanels ol ov nl nv f dt [Panel.mk none (some ts) none]).2 →
      r.panelTitle = unnamedPanel) := by
  refine ⟨?_, ?_, ?_, ?_, ?_⟩
  · intro obj ol ov nl nv f hp
    obtain ⟨⟨ti, pans, idv⟩, meta, ow, fid⟩ := obj
    simp only at hp
    subst hp
    simp [process_dashboard, processPanels]
  · intro ol ov nl nv f dt ti rest
    simp [processPanels]
  · intro ol ov nl nv
    rfl
  · intro obj ol ov nl nv f r ht hr
    rw [process_dashboard_records] at hr
    have := (processPanels_titles ol ov nl nv f _ _ r hr).2
    rw [ht] at this
    simpa using this
  · intro ol ov nl nv f dt ts r hr
    simp only [processPanels, List.append_nil, List.mem_map] at hr
    obtain ⟨c, _, hc⟩ := hr
    rw [← hc]
    rfl

/-- C8 witness: the empty dashboard object (no title, no panels, no id,
no meta) passes through the plan untouched. -/
theorem C8_witness :
    process_dashboard ⟨⟨none, none, none⟩, none, none, none⟩ [] [] [] [] [] =
      ⟨⟨⟨none, none, none⟩, none, none, none⟩, [], false⟩ :=
  C8_missing_fields.1 ⟨⟨none, none, none⟩, none, none, none⟩ [] [] [] [] [] rfl

/-- C9: the records of a planning pass are exactly the concatenation,
over the flattened leaf panels in traversal order (equivalently: the
pre-order traversal filtered to the panels without a child sequence
field), of each panel's records in target order. -/
theorem C9_record_order (obj : DashObj) (ol ov nl nv f : Str) :
    (process_dashboard obj ol ov nl nv f).records =
      (extract_panels (obj.dashboard.panels.getD [])).flatMap
        (panelRecords ol ov nl nv f (obj.dashboard.title.getD unnamedDashboard)) ∧
    (process_dashboard obj ol ov nl nv f).records =
      ((preorderPanels (obj.dashboard.panels.getD [])).filter
          (fun p => p.subpanels.isNone)).flatMap
        (panelRecords ol ov nl nv f (obj.dashboard.title.getD unnamedDashboard)) := by
  constructor
  · rw [process_dashboard_records]
    exact processPanels_records ol ov nl nv f _ _
  · rw [process_dashboard_records, ← extract_panels_eq_filter]
    exact processPanels_records ol ov nl nv f _ _

/-- C10: the scanner accepts arbitrary runs of pattern whitespace
(Python `\s` over a `str` pattern: ASCII whitespace and the Unicode
whitespace code points) between the key and the operator and between
the operator and the opening quote, and on a matching key/value pair
the replacement emits newLabel, operator, quote, newValue directly
adjacent, removing the whitespace of the matched token; concretely
`up\x7bbla = "bli"\x7d` becomes `up\x7broni="taktook"\x7d`, and so does the
variant with NO-BREAK SPACE and EM SPACE around the operator. -/
theorem C10_whitespace_matchers :
    (∀ (ol ov nl nv : Str) (k0 q : Char) (k1 ws1 op ws2 val rest : Str),
      isIdentStart k0 = true → (∀ c ∈ k1, isIdentChar c = true) →
      (∀ c ∈ ws1, isSpaceChar c = true) → (∀ c ∈ ws2, isSpaceChar c = true) →
      (op = ['='] ∨ op = ['!', '='] ∨ op = ['=', '~'] ∨ op = ['!', '~']) →
      isQuote q = true → (∀ c ∈ val, notQuote c = true) →
      k0 :: k1 = ol → val = ov →
      replace_label_in_expr ((k0 :: k1) ++ ws1 ++ op ++ ws2 ++ q :: (val ++ q :: rest))
          ol ov nl nv =
        (nl ++ op ++ q :: (nv ++ [q])) ++ replace_label_in_expr rest ol ov nl nv) ∧
    replace_label_in_expr "up\x7bbla = \"bli\"\x7d".data
      "bla".data "bli".data "roni".data "taktook".data =
      "up\x7broni=\"taktook\"\x7d".data ∧
    replace_label_in_expr "up\x7bbla\u00a0=\u2003\"bli\"\x7d".data
      "bla".data "bli".data "roni".data "taktook".data =
      "up\x7broni=\"taktook\"\x7d".data := by
  refine ⟨?_, by decide, by decide⟩
  intro ol ov nl nv k0 q k1 ws1 op ws2 val rest hk0 hk1 hws1 hws2 hop hq hval hkeq hveq
  have hm := matchMatcher_construct k0 q k1 ws1 op ws2 val rest hk0 hk1 hws1 hws2 hop hq hval
  rw [replace_step_some ol ov nl nv hm, replacer, if_pos ⟨hkeq, hveq⟩]

/-- C10 witness: the general clause at `bla\u00a0=\u2003"bli"` — a
NO-BREAK SPACE before the operator and an EM SPACE after it — inside a
closing-brace context. -/
theorem C10_witness :
    replace_label_in_expr
        (('b' :: "la".data) ++ ['\u00a0'] ++ ['='] ++ ['\u2003'] ++
          '"' :: ("bli".data ++ '"' :: "\x7d".data))
        "bla".data "bli".data "roni".data "taktook".data =
      ("roni".data ++ ['='] ++ '"' :: ("taktook".data ++ ['"'])) ++
        replace_label_in_expr "\x7d".data "bla".data "bli".data "roni".data "taktook".data :=
  C10_whitespace_matchers.1 "bla".data "bli".data "roni".data "taktook".data
    'b' '"' "la".data ['\u00a0'] ['='] ['\u2003'] "bli".data "\x7d".data
    (by decide) (by decide) (by decide) (by decide) (Or.inl rfl) (by decide) (by decide)
    rfl rfl

end GrafanaTools
